import Mathlib

/-
Verification of the eww configuration-language core: the document AST and
its cursor operations (src/src/parser/ast.rs), the expression AST's textual
rendering (src/crates/simplexpr/src/ast.rs), and the configuration
resolver (src/crates/eww/src/config/eww_config.rs, src/crates/eww/src/main.rs).

The Rust `itertools::PutBack` cursor is modelled as a plain `List Ast`:
`next` takes the head, `put_back` conses the node back onto the front.
With the depth-1 pushback discipline (every `put_back` immediately follows
a `next`) this is observationally identical to the slot-plus-iterator pair.
Stateful iterator methods become functions returning a result together
with the remaining stream.
-/

set_option maxRecDepth 4096

/-- Span from src/src/parser/ast.rs: `Span(pub usize, pub usize, pub usize)`. -/
structure Span where
  p0 : Nat
  p1 : Nat
  p2 : Nat
deriving DecidableEq, Repr

/-- Span from eww_shared_util, as used by the simplexpr crate
(`simplexpr::Span(usize, usize, usize)`); the parser crate's Span converts
into it field by field. -/
structure SSpan where
  p0 : Nat
  p1 : Nat
  p2 : Nat
deriving DecidableEq, Repr

/-- `impl Into<simplexpr::Span> for Span`: `simplexpr::Span(self.0, self.1, self.2)`. -/
def Span.toSimplexpr (s : Span) : SSpan :=
  ⟨s.p0, s.p1, s.p2⟩

/-- Modelled from the spec: `Span::DUMMY` of eww_shared_util (the crate is not
under src/); a distinguished span value used for synthetic nodes, spec section 4.2. -/
def SSpan.dummy : SSpan := ⟨0, 0, 0⟩

/-- `DynVal(pub String, pub Span)` from simplexpr::dynval: a string-backed
scalar carrying a span (spec section 3; dynval.rs itself is not under src/). -/
structure DynVal where
  str : String
  sp : SSpan
deriving DecidableEq, Repr

/-- `AstType` from src/src/parser/ast.rs, the coarse type tag, including the
virtual `IntoPrimitive` tag used only in error messages. -/
inductive AstType where
  | List
  | Array
  | Keyword
  | Symbol
  | Literal
  | SimplExpr
  | Comment
  | IntoPrimitive
deriving DecidableEq, Repr

/-- `BinOp` from src/crates/simplexpr/src/ast.rs. -/
inductive BinOp where
  | Plus
  | Minus
  | Times
  | Div
  | Mod
  | Equals
  | NotEquals
  | And
  | Or
  | GT
  | LT
  | Elvis
  | RegexMatch
deriving DecidableEq, Repr

/-- `UnaryOp` from src/crates/simplexpr/src/ast.rs. -/
inductive UnaryOp where
  | Not
deriving DecidableEq, Repr

/-- The parser crate's view of `simplexpr::ast::SimplExpr` (the version that
crate is compiled against; its `Literal` carries an explicit span, as witnessed
by `as_simplexpr` constructing `SimplExpr::Literal(span.into(), x)`). -/
inductive PSimplExpr where
  | Literal (sp : SSpan) (v : DynVal)
  | JsonArray (sp : SSpan) (xs : List PSimplExpr)
  | JsonObject (sp : SSpan) (xs : List (PSimplExpr × PSimplExpr))
  | Concat (sp : SSpan) (xs : List PSimplExpr)
  | VarRef (sp : SSpan) (name : String)
  | BinOpApp (sp : SSpan) (l : PSimplExpr) (op : BinOp) (r : PSimplExpr)
  | UnaryOpApp (sp : SSpan) (op : UnaryOp) (x : PSimplExpr)
  | IfElse (sp : SSpan) (c t e : PSimplExpr)
  | JsonAccess (sp : SSpan) (v i : PSimplExpr)
  | FunctionCall (sp : SSpan) (name : String) (args : List PSimplExpr)

/-- `Ast` from src/src/parser/ast.rs. -/
inductive Ast where
  | List (sp : Span) (items : List Ast)
  | Array (sp : Span) (items : List Ast)
  | Keyword (sp : Span) (name : String)
  | Symbol (sp : Span) (name : String)
  | Literal (sp : Span) (v : DynVal)
  | SimplExpr (sp : Span) (e : PSimplExpr)
  | Comment (sp : Span)

/-- The subset of `AstError` (crate::error) exercised by the code under src/:
`WrongExprType(Option<Span>, AstType, AstType)` and `MissingNode(Option<Span>)`. -/
inductive AstError where
  | WrongExprType (sp : Option Span) (expected : AstType) (actual : AstType)
  | MissingNode (sp : Option Span)
deriving DecidableEq, Repr

/-- `Ast::expr_type` from src/src/parser/ast.rs. -/
def Ast.expr_type : Ast → AstType
  | .List .. => .List
  | .Array .. => .Array
  | .Keyword .. => .Keyword
  | .Symbol .. => .Symbol
  | .Literal .. => .Literal
  | .SimplExpr .. => .SimplExpr
  | .Comment _ => .Comment

/-- `Ast::span` from src/src/parser/ast.rs. -/
def Ast.span : Ast → Span
  | .List sp _ => sp
  | .Array sp _ => sp
  | .Keyword sp _ => sp
  | .Symbol sp _ => sp
  | .Literal sp _ => sp
  | .SimplExpr sp _ => sp
  | .Comment sp => sp

/-- `Ast::as_simplexpr` from src/src/parser/ast.rs. -/
def Ast.as_simplexpr : Ast → Except AstError PSimplExpr
  | .Literal sp x => .ok (.Literal sp.toSimplexpr x)
  | .SimplExpr _ x => .ok x
  | a => .error (.WrongExprType (some a.span) .IntoPrimitive a.expr_type)

/-- `AstIterator::expect_symbol` (return_or_put_back! macro expansion): take the
next node; unwrap a Symbol, push any other node back with a type-mismatch
error, or report a missing node on exhaustion. -/
def expect_symbol : List Ast → Except AstError (Span × String) × List Ast
  | [] => (.error (.MissingNode none), [])
  | .Symbol sp x :: rest => (.ok (sp, x), rest)
  | other :: rest =>
      (.error (.WrongExprType (some other.span) .Symbol other.expr_type), other :: rest)

/-- `AstIterator::expect_literal` (return_or_put_back! macro expansion). -/
def expect_literal : List Ast → Except AstError (Span × DynVal) × List Ast
  | [] => (.error (.MissingNode none), [])
  | .Literal sp x :: rest => (.ok (sp, x), rest)
  | other :: rest =>
      (.error (.WrongExprType (some other.span) .Literal other.expr_type), other :: rest)

/-- `AstIterator::expect_list` (return_or_put_back! macro expansion). -/
def expect_list : List Ast → Except AstError (Span × List Ast) × List Ast
  | [] => (.error (.MissingNode none), [])
  | .List sp x :: rest => (.ok (sp, x), rest)
  | other :: rest =>
      (.error (.WrongExprType (some other.span) .List other.expr_type), other :: rest)

/-- `AstIterator::expect_array` (return_or_put_back! macro expansion). -/
def expect_array : List Ast → Except AstError (Span × List Ast) × List Ast
  | [] => (.error (.MissingNode none), [])
  | .Array sp x :: rest => (.ok (sp, x), rest)
  | other :: rest =>
      (.error (.WrongExprType (some other.span) .Array other.expr_type), other :: rest)

/-- `AstIterator::expect_any`: `self.iter.next().or_missing().and_then(T::from_ast)`. -/
def expect_any {T : Type} (from_ast : Ast → Except AstError T) :
    List Ast → Except AstError T × List Ast
  | [] => (.error (.MissingNode none), [])
  | a :: rest => (from_ast a, rest)

/-- The loop body of `parse_key_values` from src/src/parser/ast.rs, with the
accumulated HashMap modelled as an association list whose most recent insert
sits at the front (`hmLookup` finds the most recent insert, matching
`HashMap::insert` overwrite semantics). The remaining stream is returned in
both the success and the error case, since the Rust iterator is `&mut`. -/
def parse_key_values_go {T : Type} (from_ast : Ast → Except AstError T)
    (data : List (String × T)) :
    List Ast → Except AstError (List (String × T)) × List Ast
  | [] => (.ok data, [])
  | .Keyword sp kw :: rest =>
      match rest with
      | [] => (.ok data, [.Keyword sp kw])
      | v :: rest' =>
          match from_ast v with
          | .ok t => parse_key_values_go from_ast ((kw, t) :: data) rest'
          | .error e => (.error e, rest')
  | other :: rest => (.ok data, other :: rest)

/-- `parse_key_values` from src/src/parser/ast.rs (also exposed as
`AstIterator::expect_key_values`): starts from an empty map. -/
def parse_key_values {T : Type} (from_ast : Ast → Except AstError T)
    (l : List Ast) : Except AstError (List (String × T)) × List Ast :=
  parse_key_values_go from_ast [] l

/-- Association-list lookup, the observation function for the HashMap model:
returns the value of the most recent insert for the key. -/
def hmLookup {K V : Type} [DecidableEq K] (k : K) : List (K × V) → Option V
  | [] => none
  | (k', v) :: rest => if k' = k then some v else hmLookup k rest

/-- The greedy keyword/value splitter, written after the specification's words
(section 4.3): consume alternating `Keyword(name)` / value pairs in stream
order; stop at the first non-Keyword node or at exhaustion, keeping that node
at the front of the remainder; a dangling trailing Keyword with no following
value stays in the remainder as well. -/
def kvSplit : List Ast → List (String × Ast) × List Ast
  | .Keyword _ kw :: v :: rest =>
      let r := kvSplit rest
      ((kw, v) :: r.1, r.2)
  | [Ast.Keyword sp kw] => ([], [Ast.Keyword sp kw])
  | l => ([], l)

/-- Convert every value in a keyword/value pair list with the pluggable
from-AST strategy, failing on the first conversion error. -/
def convertPairs {T : Type} (f : Ast → Except AstError T) :
    List (String × Ast) → Except AstError (List (String × T))
  | [] => .ok []
  | (k, v) :: rest =>
      match f v with
      | .error e => .error e
      | .ok t =>
          match convertPairs f rest with
          | .error e => .error e
          | .ok ts => .ok ((k, t) :: ts)

/-- The value of the last write for a key, reading a pair list in insertion
(stream) order: the specification's "last write per duplicate key wins". -/
def lastWrite {T : Type} (k : String) : List (String × T) → Option T
  | [] => none
  | (k', t) :: rest =>
      match lastWrite k rest with
      | some t' => some t'
      | none => if k' = k then some t else none

theorem hmLookup_append {K V : Type} [DecidableEq K] (k : K) (a b : List (K × V)) :
    hmLookup k (a ++ b) =
      match hmLookup k a with
      | some v => some v
      | none => hmLookup k b := by
  induction a with
  | nil => simp [hmLookup]
  | cons p rest ih =>
      obtain ⟨k', v⟩ := p
      by_cases h : k' = k <;> simp [hmLookup, h, ih]

theorem hmLookup_reverse_eq_lastWrite {T : Type} (k : String) (ps : List (String × T)) :
    hmLookup k ps.reverse = lastWrite k ps := by
  induction ps with
  | nil => simp [hmLookup, lastWrite]
  | cons p rest ih =>
      obtain ⟨k', t⟩ := p
      simp only [List.reverse_cons, hmLookup_append, ih, lastWrite]
      cases lastWrite k rest <;> simp [hmLookup]

theorem parse_key_values_go_spec {T : Type} (f : Ast → Except AstError T) :
    ∀ (n : Nat) (l : List Ast), l.length ≤ n →
      ∀ (data : List (String × T)) (ps : List (String × T)),
        convertPairs f (kvSplit l).1 = .ok ps →
        parse_key_values_go f data l = (.ok (ps.reverse ++ data), (kvSplit l).2) := by
  intro n
  induction n with
  | zero =>
      intro l hl data ps hc
      have : l = [] := List.length_eq_zero.mp (Nat.le_zero.mp hl)
      subst this
      simp only [kvSplit, convertPairs] at hc
      cases hc
      simp [parse_key_values_go, kvSplit]
  | succ n ih =>
      intro l hl data ps hc
      match l with
      | [] =>
          simp only [kvSplit, convertPairs] at hc
          cases hc
          simp [parse_key_values_go, kvSplit]
      | Ast.Keyword sp kw :: tail =>
          match tail with
          | [] =>
              simp only [kvSplit, convertPairs] at hc
              cases hc
              simp [parse_key_values_go, kvSplit]
          | v :: rest =>
              simp only [kvSplit, convertPairs] at hc
              cases hfv : f v with
              | error e => rw [hfv] at hc; cases hc
              | ok t =>
                  rw [hfv] at hc
                  cases hcr : convertPairs f (kvSplit rest).1 with
                  | error e => rw [hcr] at hc; cases hc
                  | ok ts =>
                      rw [hcr] at hc
                      cases hc
                      have hlen : rest.length ≤ n := by
                        simp only [List.length_cons] at hl; omega
                      have := ih rest hlen ((kw, t) :: data) ts hcr
                      simp only [parse_key_values_go, hfv, this, kvSplit]
                      simp
      | Ast.List sp items :: rest =>
          simp only [kvSplit, convertPairs] at hc
          cases hc
          simp [parse_key_values_go, kvSplit]
      | Ast.Array sp items :: rest =>
          simp only [kvSplit, convertPairs] at hc
          cases hc
          simp [parse_key_values_go, kvSplit]
      | Ast.Symbol sp x :: rest =>
          simp only [kvSplit, convertPairs] at hc
          cases hc
          simp [parse_key_values_go, kvSplit]
      | Ast.Literal sp x :: rest =>
          simp only [kvSplit, convertPairs] at hc
          cases hc
          simp [parse_key_values_go, kvSplit]
      | Ast.SimplExpr sp x :: rest =>
          simp only [kvSplit, convertPairs] at hc
          cases hc
          simp [parse_key_values_go, kvSplit]
      | Ast.Comment sp :: rest =>
          simp only [kvSplit, convertPairs] at hc
          cases hc
          simp [parse_key_values_go, kvSplit]

/-- Claim C2: `expect_key_values` greedily consumes alternating
`Keyword(name)`/value pairs into a name-to-value mapping in which the last
write per duplicate key wins; it stops at the first non-Keyword node or at
exhaustion, restoring that node to the front of the stream, and a Keyword
followed by exhaustion is pushed back with the partially collected mapping
returned successfully. `kvSplit` is the specification-side description of the
greedy scan; provided each collected value converts successfully, the result
is exactly the converted pair list (most recent insert in front) together with
the `kvSplit` remainder, and lookups in it obey last-write-wins. -/
theorem parse_key_values_spec {T : Type} (f : Ast → Except AstError T)
    (l : List Ast) (ps : List (String × T))
    (h : convertPairs f (kvSplit l).1 = .ok ps) :
    parse_key_values f l = (.ok ps.reverse, (kvSplit l).2) ∧
      ∀ k, hmLookup k ps.reverse = lastWrite k ps := by
  constructor
  · have hmain := parse_key_values_go_spec f l.length l le_rfl [] ps h
    simpa [parse_key_values] using hmain
  · intro k
    exact hmLookup_reverse_eq_lastWrite k ps

/-- The keyword-grouping scenario of spec section 8: the stream
`[:a 1, :b 2, 3]` (as document-AST nodes). -/
def kvScenario : List Ast :=
  [Ast.Keyword ⟨1, 3, 0⟩ "a", Ast.Literal ⟨4, 5, 0⟩ ⟨"1", ⟨4, 5, 0⟩⟩,
   Ast.Keyword ⟨7, 9, 0⟩ "b", Ast.Literal ⟨10, 11, 0⟩ ⟨"2", ⟨10, 11, 0⟩⟩,
   Ast.Literal ⟨13, 14, 0⟩ ⟨"3", ⟨13, 14, 0⟩⟩]

/-- The pairs collected from `kvScenario`, in stream order. -/
def kvScenarioPairs : List (String × Ast) :=
  [("a", Ast.Literal ⟨4, 5, 0⟩ ⟨"1", ⟨4, 5, 0⟩⟩),
   ("b", Ast.Literal ⟨10, 11, 0⟩ ⟨"2", ⟨10, 11, 0⟩⟩)]

theorem parse_key_values_spec_witness :
    convertPairs (fun a => .ok a) (kvSplit kvScenario).1 = .ok kvScenarioPairs ∧
      parse_key_values (fun a => .ok a) kvScenario =
        (.ok kvScenarioPairs.reverse, [Ast.Literal ⟨13, 14, 0⟩ ⟨"3", ⟨13, 14, 0⟩⟩]) ∧
      hmLookup "a" kvScenarioPairs.reverse = some (Ast.Literal ⟨4, 5, 0⟩ ⟨"1", ⟨4, 5, 0⟩⟩) ∧
      hmLookup "b" kvScenarioPairs.reverse = some (Ast.Literal ⟨10, 11, 0⟩ ⟨"2", ⟨10, 11, 0⟩⟩) :=
  ⟨rfl, (parse_key_values_spec (fun a => .ok a) kvScenario kvScenarioPairs rfl).1, rfl, rfl⟩

theorem parse_key_values_go_ok_tail {T : Type} (f : Ast → Except AstError T) :
    ∀ (n : Nat) (l : List Ast), l.length ≤ n →
      ∀ (data m : List (String × T)) (rest : List Ast),
        parse_key_values_go f data l = (.ok m, rest) →
        parse_key_values_go f [] rest = (.ok [], rest) := by
  intro n
  induction n with
  | zero =>
      intro l hl data m rest h
      have : l = [] := List.length_eq_zero.mp (Nat.le_zero.mp hl)
      subst this
      simp only [parse_key_values_go] at h
      cases h
      rfl
  | succ n ih =>
      intro l hl data m rest h
      match l with
      | [] =>
          simp only [parse_key_values_go] at h
          cases h
          rfl
      | Ast.Keyword sp kw :: tail =>
          match tail with
          | [] =>
              simp only [parse_key_values_go] at h
              cases h
              rfl
          | v :: rest' =>
              simp only [parse_key_values_go] at h
              cases hfv : f v with
              | error e => rw [hfv] at h; cases h
              | ok t =>
                  rw [hfv] at h
                  have hlen : rest'.length ≤ n := by
                    simp only [List.length_cons] at hl; omega
                  exact ih rest' hlen ((kw, t) :: data) m rest h
      | Ast.List sp items :: tail =>
          simp only [parse_key_values_go] at h
          cases h
          rfl
      | Ast.Array sp items :: tail =>
          simp only [parse_key_values_go] at h
          cases h
          rfl
      | Ast.Symbol sp x :: tail =>
          simp only [parse_key_values_go] at h
          cases h
          rfl
      | Ast.Literal sp x :: tail =>
          simp only [parse_key_values_go] at h
          cases h
          rfl
      | Ast.SimplExpr sp x :: tail =>
          simp only [parse_key_values_go] at h
          cases h
          rfl
      | Ast.Comment sp :: tail =>
          simp only [parse_key_values_go] at h
          cases h
          rfl

/-- Claim C9: `expect_key_values` is idempotent up to its stopping boundary —
after a successful call, invoking it again on the resulting cursor position
returns an empty mapping and leaves the cursor position unchanged. -/
theorem parse_key_values_idempotent {T : Type} (f : Ast → Except AstError T)
    (l : List Ast) (m : List (String × T)) (rest : List Ast)
    (h : parse_key_values f l = (.ok m, rest)) :
    parse_key_values f rest = (.ok [], rest) :=
  parse_key_values_go_ok_tail f l.length l le_rfl [] m rest h

theorem parse_key_values_idempotent_witness :
    parse_key_values (fun a => .ok a) [Ast.Keyword ⟨0, 2, 0⟩ "a"] =
      (.ok [], [Ast.Keyword ⟨0, 2, 0⟩ "a"]) :=
  parse_key_values_idempotent (fun a => .ok a)
    [Ast.Keyword ⟨0, 0, 0⟩ "x", Ast.Literal ⟨1, 2, 0⟩ ⟨"1", ⟨1, 2, 0⟩⟩, Ast.Keyword ⟨0, 2, 0⟩ "a"]
    [("x", Ast.Literal ⟨1, 2, 0⟩ ⟨"1", ⟨1, 2, 0⟩⟩)] [Ast.Keyword ⟨0, 2, 0⟩ "a"] rfl

/-- Claim C10: when the from-AST conversion of a value node fails inside
`expect_key_values`, the error is propagated with both the preceding Keyword
node and the value node consumed and not pushed back, and the pairs collected
before the failure (`data`, arbitrary here) are discarded. -/
theorem parse_key_values_conversion_error {T : Type} (f : Ast → Except AstError T)
    (data : List (String × T)) (sp : Span) (kw : String) (v : Ast)
    (rest : List Ast) (e : AstError) (h : f v = .error e) :
    parse_key_values_go f data (Ast.Keyword sp kw :: v :: rest) = (.error e, rest) ∧
      parse_key_values f (Ast.Keyword sp kw :: v :: rest) = (.error e, rest) := by
  constructor
  · simp [parse_key_values_go, h]
  · simp [parse_key_values, parse_key_values_go, h]

/-- A conversion strategy failing exactly on Comment nodes, used as a witness
instance. -/
def failOnComment : Ast → Except AstError Ast
  | .Comment sp => .error (.WrongExprType (some sp) .Literal .Comment)
  | a => .ok a

theorem parse_key_values_conversion_error_witness :
    parse_key_values_go failOnComment [("p", Ast.Symbol ⟨0, 0, 0⟩ "q")]
        [Ast.Keyword ⟨0, 2, 0⟩ "a", Ast.Comment ⟨3, 4, 0⟩, Ast.Symbol ⟨5, 6, 0⟩ "z"] =
      (.error (.WrongExprType (some ⟨3, 4, 0⟩) .Literal .Comment), [Ast.Symbol ⟨5, 6, 0⟩ "z"]) ∧
      parse_key_values failOnComment
        [Ast.Keyword ⟨0, 2, 0⟩ "a", Ast.Comment ⟨3, 4, 0⟩, Ast.Symbol ⟨5, 6, 0⟩ "z"] =
      (.error (.WrongExprType (some ⟨3, 4, 0⟩) .Literal .Comment), [Ast.Symbol ⟨5, 6, 0⟩ "z"]) :=
  parse_key_values_conversion_error failOnComment [("p", Ast.Symbol ⟨0, 0, 0⟩ "q")]
    ⟨0, 2, 0⟩ "a" (Ast.Comment ⟨3, 4, 0⟩) [Ast.Symbol ⟨5, 6, 0⟩ "z"]
    (.WrongExprType (some ⟨3, 4, 0⟩) .Literal .Comment) rfl

/-- Claim C3: each of `expect_symbol`, `expect_literal`, `expect_list` and
`expect_array` either consumes exactly one node and returns its unwrapped
payload, or, on a node of the wrong kind, pushes the inspected node back (the
cursor position is unchanged) and returns a type-mismatch error carrying that
node's span, the expected tag, and the node's true tag as the actual tag; on
exhaustion it returns a missing-node error with no span. -/
theorem expect_ops_consume_or_restore (l : List Ast) :
    (l = [] →
      expect_symbol l = (.error (.MissingNode none), []) ∧
      expect_literal l = (.error (.MissingNode none), []) ∧
      expect_list l = (.error (.MissingNode none), []) ∧
      expect_array l = (.error (.MissingNode none), [])) ∧
    (∀ a rest, l = a :: rest →
      ((∃ sp x, a = Ast.Symbol sp x ∧ expect_symbol l = (.ok (sp, x), rest)) ∨
        (a.expr_type ≠ .Symbol ∧
          expect_symbol l = (.error (.WrongExprType (some a.span) .Symbol a.expr_type), l))) ∧
      ((∃ sp x, a = Ast.Literal sp x ∧ expect_literal l = (.ok (sp, x), rest)) ∨
        (a.expr_type ≠ .Literal ∧
          expect_literal l = (.error (.WrongExprType (some a.span) .Literal a.expr_type), l))) ∧
      ((∃ sp x, a = Ast.List sp x ∧ expect_list l = (.ok (sp, x), rest)) ∨
        (a.expr_type ≠ .List ∧
          expect_list l = (.error (.WrongExprType (some a.span) .List a.expr_type), l))) ∧
      ((∃ sp x, a = Ast.Array sp x ∧ expect_array l = (.ok (sp, x), rest)) ∨
        (a.expr_type ≠ .Array ∧
          expect_array l = (.error (.WrongExprType (some a.span) .Array a.expr_type), l)))) := by
  constructor
  · intro h
    subst h
    exact ⟨rfl, rfl, rfl, rfl⟩
  · intro a rest h
    subst h
    cases a <;>
      refine ⟨?_, ?_, ?_, ?_⟩ <;>
      first
        | exact Or.inl ⟨_, _, rfl, rfl⟩
        | exact Or.inr ⟨fun hh => AstType.noConfusion hh, rfl⟩

theorem expect_ops_consume_or_restore_witness :
    expect_symbol [Ast.Comment ⟨5, 7, 0⟩] =
        (.error (.WrongExprType (some ⟨5, 7, 0⟩) .Symbol .Comment), [Ast.Comment ⟨5, 7, 0⟩]) ∧
      expect_list [Ast.Comment ⟨5, 7, 0⟩] =
        (.error (.WrongExprType (some ⟨5, 7, 0⟩) .List .Comment), [Ast.Comment ⟨5, 7, 0⟩]) ∧
      expect_symbol [] = (.error (.MissingNode none), []) := by
  have hmiss := (expect_ops_consume_or_restore []).1 rfl
  have hstep := (expect_ops_consume_or_restore [Ast.Comment ⟨5, 7, 0⟩]).2
    (Ast.Comment ⟨5, 7, 0⟩) [] rfl
  refine ⟨?_, ?_, hmiss.1⟩
  · rcases hstep.1 with ⟨sp, x, hax, _⟩ | ⟨_, he⟩
    · exact Ast.noConfusion hax
    · exact he
  · rcases hstep.2.2.1 with ⟨sp, x, hax, _⟩ | ⟨_, he⟩
    · exact Ast.noConfusion hax
    · exact he

/-- Claim C7: the generic conversion `as_simplexpr` succeeds exactly on
Literal nodes (producing an expression-AST literal carrying the node's span)
and on Expression nodes (returning the embedded expression); every other
variant fails with a type-mismatch error whose expected tag is
`IntoPrimitive`, carrying the node's span and its actual tag. -/
theorem as_simplexpr_behavior (a : Ast) :
    (∀ sp x, a = Ast.Literal sp x →
      a.as_simplexpr = .ok (PSimplExpr.Literal sp.toSimplexpr x)) ∧
    (∀ sp x, a = Ast.SimplExpr sp x → a.as_simplexpr = .ok x) ∧
    (a.expr_type ≠ .Literal → a.expr_type ≠ .SimplExpr →
      a.as_simplexpr = .error (.WrongExprType (some a.span) .IntoPrimitive a.expr_type)) := by
  cases a with
  | Literal sp v =>
      refine ⟨?_, ?_, ?_⟩
      · intro sp' x' h
        injection h with h1 h2
        subst h1; subst h2
        rfl
      · intro sp' x' h
        exact Ast.noConfusion h
      · intro h1 _
        exact absurd rfl h1
  | SimplExpr sp e =>
      refine ⟨?_, ?_, ?_⟩
      · intro sp' x' h
        exact Ast.noConfusion h
      · intro sp' x' h
        injection h with h1 h2
        subst h1; subst h2
        rfl
      · intro _ h2
        exact absurd rfl h2
  | List sp items =>
      exact ⟨fun _ _ h => Ast.noConfusion h, fun _ _ h => Ast.noConfusion h, fun _ _ => rfl⟩
  | Array sp items =>
      exact ⟨fun _ _ h => Ast.noConfusion h, fun _ _ h => Ast.noConfusion h, fun _ _ => rfl⟩
  | Keyword sp x =>
      exact ⟨fun _ _ h => Ast.noConfusion h, fun _ _ h => Ast.noConfusion h, fun _ _ => rfl⟩
  | Symbol sp x =>
      exact ⟨fun _ _ h => Ast.noConfusion h, fun _ _ h => Ast.noConfusion h, fun _ _ => rfl⟩
  | Comment sp =>
      exact ⟨fun _ _ h => Ast.noConfusion h, fun _ _ h => Ast.noConfusion h, fun _ _ => rfl⟩

theorem as_simplexpr_behavior_witness :
    Ast.as_simplexpr (Ast.Literal ⟨2, 4, 1⟩ ⟨"v", ⟨2, 4, 1⟩⟩) =
        .ok (PSimplExpr.Literal ⟨2, 4, 1⟩ ⟨"v", ⟨2, 4, 1⟩⟩) ∧
      Ast.as_simplexpr (Ast.Keyword ⟨0, 2, 0⟩ "k") =
        .error (.WrongExprType (some ⟨0, 2, 0⟩) .IntoPrimitive .Keyword) :=
  ⟨(as_simplexpr_behavior (Ast.Literal ⟨2, 4, 1⟩ ⟨"v", ⟨2, 4, 1⟩⟩)).1 ⟨2, 4, 1⟩
      ⟨"v", ⟨2, 4, 1⟩⟩ rfl,
    (as_simplexpr_behavior (Ast.Keyword ⟨0, 2, 0⟩ "k")).2.2 (by decide) (by decide)⟩

/-- `VarName` (eww_shared_util): a newtype over String, modelled as String. -/
abbrev VarName := String

/-- A file-system path, modelled by its textual form. -/
abbrev FsPath := String

/-- The kind of file-system object at a path: the abstraction of the
`Path::is_file` / `Path::exists` checks used by the resolver. -/
inductive PathKind where
  | file
  | dir
  | missing
deriving DecidableEq, Repr

/-- `HashMap::insert` under the association-list model: the new binding
becomes the most recent (front) one, which is what `hmLookup` observes. -/
def hmInsert {K V : Type} (m : List (K × V)) (k : K) (v : V) : List (K × V) :=
  (k, v) :: m

/-- `HashMap::extend` under the association-list model: insert every binding
of `other` into `m`, in `other`'s order. -/
def hmExtend {K V : Type} (m other : List (K × V)) : List (K × V) :=
  other.foldl (fun acc p => hmInsert acc p.1 p.2) m

theorem hmExtend_eq {K V : Type} (other : List (K × V)) :
    ∀ m : List (K × V), hmExtend m other = other.reverse ++ m := by
  induction other with
  | nil => intro m; rfl
  | cons p rest ih =>
      intro m
      show hmExtend (hmInsert m p.1 p.2) rest = (p :: rest).reverse ++ m
      rw [ih]
      simp [hmInsert]

theorem hmLookup_mem_iff {K V : Type} [DecidableEq K] (k : K) (l : List (K × V)) :
    (∃ v, hmLookup k l = some v) ↔ ∃ v, (k, v) ∈ l := by
  induction l with
  | nil => simp [hmLookup]
  | cons p rest ih =>
      obtain ⟨k', v'⟩ := p
      by_cases h : k' = k
      · subst h
        simp [hmLookup]
      · simp only [hmLookup, if_neg h, ih, List.mem_cons, Prod.mk.injEq]
        constructor
        · rintro ⟨v, hv⟩
          exact ⟨v, Or.inr hv⟩
        · rintro ⟨v, hv | hv⟩
          · exact absurd hv.1.symm h
          · exact ⟨v, hv⟩

/-- `Config` (yuck::config::Config), the parse result that
`EwwConfig::read_from_file` destructures; the yuck definition structs are not
under src/, so the per-entity payload types stay abstract. -/
structure Config (W Wd Vd SV : Type) where
  widget_definitions : List (String × W)
  window_definitions : List (String × Wd)
  var_definitions : List (VarName × Vd)
  script_vars : List (VarName × SV)

/-- `EwwConfig` from src/crates/eww/src/config/eww_config.rs. -/
structure EwwConfig (W EW SV : Type) where
  widgets : List (String × W)
  windows : List (String × EW)
  initial_variables : List (VarName × DynVal)
  script_vars : List (VarName × SV)

/-- The shared shape `.map(|(k, v)| Ok((k, g(v)?))).collect::<Result<HashMap>>()`:
build a map by converting each value in iteration order, aborting at the first
error (used both for the script-variable initial state and for resolving
window definitions). -/
def collectPairs {K B C E : Type} (g : B → Except E C) :
    List (K × B) → List (K × C) → Except E (List (K × C))
  | [], acc => .ok acc
  | (k, b) :: rest, acc =>
      match g b with
      | .error e => .error e
      | .ok c => collectPairs g rest (hmInsert acc k c)

/-- `EwwConfig::generate_initial_state`: compute every script variable's
initial value (any single failure aborts and yields that error), then overlay
the statically declared initial variables via `extend`, so static bindings are
inserted last and win on lookup. `script_var::initial_value` is not under
src/ and is passed in as the per-variable computation. -/
def generate_initial_state {W EW SV E : Type} (initial_value : SV → Except E DynVal)
    (c : EwwConfig W EW SV) : Except E (List (VarName × DynVal)) :=
  match collectPairs initial_value c.script_vars [] with
  | .error e => .error e
  | .ok vars => .ok (hmExtend vars c.initial_variables)

/-- `EwwConfig::read_from_file`: fail if the config file path does not exist,
parse the main file (`Config::generate_from_main_file`, delegated to yuck and
not under src/, passed in as `gen_main`), extend the parsed script variables
with the inbuilt ones (`get_inbuilt_vars`, not under src/, passed in), resolve
every window definition against the widget mapping
(`EwwWindowDefinition::generate`, not under src/, passed in), and assemble the
EwwConfig. Errors are modelled by their message strings. -/
def read_from_file {W Wd Vd SV EW : Type} (fs : FsPath → PathKind)
    (gen_main : FsPath → Except String (Config W Wd Vd SV))
    (inbuilt : List (VarName × SV))
    (gen_window : List (String × W) → Wd → Except String EW)
    (initial_value_of : Vd → DynVal)
    (path : FsPath) : Except String (EwwConfig W EW SV) :=
  if fs path = PathKind.missing then
    .error ("The configuration file `" ++ path ++ "` does not exist")
  else
    match gen_main path with
    | .error e => .error e
    | .ok cfg =>
        let script_vars := hmExtend cfg.script_vars inbuilt
        match collectPairs (gen_window cfg.widget_definitions) cfg.window_definitions [] with
        | .error e => .error e
        | .ok windows =>
            .ok { widgets := cfg.widget_definitions
                  windows := windows
                  initial_variables :=
                    cfg.var_definitions.map (fun p => (p.1, initial_value_of p.2))
                  script_vars := script_vars }

/-- `EwwPaths` from src/crates/eww/src/main.rs; the log-file and ipc-socket
fields are derived from environment variables and canonicalization (I/O,
out of scope per spec section 1), so only the config directory is retained. -/
structure EwwPaths where
  config_dir : FsPath
deriving DecidableEq, Repr

/-- `EwwPaths::from_config_dir`: reject a path that is an existing regular
file with a fixed message, then reject a nonexistent path with a message
naming the directory; otherwise build the paths value. -/
def from_config_dir (fs : FsPath → PathKind) (config_dir : FsPath) : Except String EwwPaths :=
  if fs config_dir = PathKind.file then
    .error "Please provide the path to the config directory, not a file within it"
  else if fs config_dir = PathKind.missing then
    .error ("Configuration directory " ++ config_dir ++ " does not exist")
  else
    .ok ⟨config_dir⟩

/-- Whether `needle` occurs at the start of `hay`. -/
def startsWithList {α : Type} [DecidableEq α] : List α → List α → Bool
  | _, [] => true
  | [], _ :: _ => false
  | h :: hs, n :: ns => if h = n then startsWithList hs ns else false

/-- Whether `needle` occurs contiguously anywhere in `hay`. -/
def hasSubList {α : Type} [DecidableEq α] (needle : List α) : List α → Bool
  | [] => needle.isEmpty
  | h :: t => startsWithList (h :: t) needle || hasSubList needle t

/-- An error message "names the path" when the path occurs in it verbatim. -/
def mentions (needle hay : String) : Bool :=
  hasSubList needle.toList hay.toList

theorem startsWithList_self_append {α : Type} [DecidableEq α] (xs suf : List α) :
    startsWithList (xs ++ suf) xs = true := by
  induction xs with
  | nil => simp [startsWithList]
  | cons h t ih => simp [startsWithList, ih]

theorem hasSubList_nil {α : Type} [DecidableEq α] (l : List α) :
    hasSubList ([] : List α) l = true := by
  cases l <;> simp [hasSubList, startsWithList]

theorem hasSubList_around {α : Type} [DecidableEq α] (needle : List α) :
    ∀ pre suf : List α, hasSubList needle (pre ++ (needle ++ suf)) = true := by
  intro pre
  induction pre with
  | nil =>
      intro suf
      match needle with
      | [] => exact hasSubList_nil suf
      | n :: ns =>
          simp only [List.nil_append, List.cons_append, hasSubList, Bool.or_eq_true]
          exact Or.inl (startsWithList_self_append (n :: ns) suf)
  | cons h t ih =>
      intro suf
      simp only [List.cons_append, hasSubList, Bool.or_eq_true]
      exact Or.inr (ih suf)

theorem string_data_append (a b : String) : (a ++ b).toList = a.toList ++ b.toList :=
  rfl

theorem mentions_around (p a b : String) : mentions p (a ++ p ++ b) = true := by
  show hasSubList p.toList (a ++ p ++ b).toList = true
  rw [string_data_append, string_data_append, List.append_assoc]
  exact hasSubList_around p.toList a.toList b.toList

/-- Claim C1: when every script variable's initial-value computation succeeds,
`generate_initial_state` first computes the script-variable values and then
overlays the statically declared initial variables, so that a lookup finds the
static value whenever the name is statically bound and otherwise the computed
value — on any collision the static value wins. -/
theorem generate_initial_state_static_wins {W EW SV E : Type}
    (initial_value : SV → Except E DynVal) (c : EwwConfig W EW SV)
    (vars : List (VarName × DynVal))
    (h : collectPairs initial_value c.script_vars [] = .ok vars) :
    generate_initial_state initial_value c = .ok (hmExtend vars c.initial_variables) ∧
      ∀ x, hmLookup x (hmExtend vars c.initial_variables) =
        match hmLookup x c.initial_variables.reverse with
        | some v => some v
        | none => hmLookup x vars := by
  constructor
  · simp [generate_initial_state, h]
  · intro x
    rw [hmExtend_eq, hmLookup_append]
    cases hmLookup x c.initial_variables.reverse <;> rfl

/-- The DynVal "a" with a dummy span. -/
def dvA : DynVal := ⟨"a", SSpan.dummy⟩

/-- The DynVal "b" with a dummy span. -/
def dvB : DynVal := ⟨"b", SSpan.dummy⟩

/-- A concrete configuration with a script variable `x` computing to "a" and a
static variable `x` holding "b", for the static-over-computed scenario. -/
def collisionConfig : EwwConfig Unit Unit DynVal :=
  { widgets := []
    windows := []
    initial_variables := [("x", dvB)]
    script_vars := [("x", dvA)] }

theorem generate_initial_state_static_wins_witness :
    generate_initial_state (fun d => (.ok d : Except Unit DynVal)) collisionConfig =
      .ok [("x", dvB), ("x", dvA)] ∧
      hmLookup "x" [("x", dvB), ("x", dvA)] = some dvB :=
  ⟨(generate_initial_state_static_wins (fun d => (.ok d : Except Unit DynVal))
      collisionConfig [("x", dvA)] rfl).1,
    by decide⟩

theorem collectPairs_first_error {K B C E : Type} (g : B → Except E C) :
    ∀ (l : List (K × B)) (acc : List (K × C)),
      (∃ p, p ∈ l ∧ ∃ e, g p.2 = .error e) →
      ∃ e', collectPairs g l acc = .error e' ∧ ∃ p, p ∈ l ∧ g p.2 = .error e' := by
  intro l
  induction l with
  | nil =>
      intro acc h
      obtain ⟨p, hp, _⟩ := h
      exact absurd hp (List.not_mem_nil p)
  | cons q rest ih =>
      intro acc h
      obtain ⟨k, b⟩ := q
      cases hg : g b with
      | error e =>
          exact ⟨e, by simp [collectPairs, hg], (k, b), List.mem_cons_self _ _, hg⟩
      | ok c =>
          obtain ⟨p, hp, e, hpe⟩ := h
          have hrest : p ∈ rest := by
            rcases List.mem_cons.mp hp with hpq | hmem
            · subst hpq
              rw [hg] at hpe
              cases hpe
            · exact hmem
          obtain ⟨e', hcoll, p', hp', hg'⟩ :=
            ih (hmInsert acc k c) ⟨p, hrest, e, hpe⟩
          exact ⟨e', by simp [collectPairs, hg, hcoll], p', List.mem_cons_of_mem _ hp', hg'⟩

/-- Claim C4: if the initial-value computation of any script variable fails,
`generate_initial_state` returns a computation error — specifically the error
produced by one of the failing script variables — and produces no mapping at
all (the result is an `error`, which carries no partial state). -/
theorem generate_initial_state_fail_aborts {W EW SV E : Type}
    (initial_value : SV → Except E DynVal) (c : EwwConfig W EW SV)
    (h : ∃ p, p ∈ c.script_vars ∧ ∃ e, initial_value p.2 = .error e) :
    ∃ e', generate_initial_state initial_value c = .error e' ∧
      ∃ p, p ∈ c.script_vars ∧ initial_value p.2 = .error e' := by
  obtain ⟨e', hcoll, hp⟩ := collectPairs_first_error initial_value c.script_vars [] h
  exact ⟨e', by simp [generate_initial_state, hcoll], hp⟩

/-- A concrete configuration whose sole script variable's computation fails. -/
def failingConfig : EwwConfig Unit Unit Unit :=
  { widgets := []
    windows := []
    initial_variables := [("y", ⟨"1", SSpan.dummy⟩)]
    script_vars := [("x", ())] }

theorem generate_initial_state_fail_aborts_witness :
    ∃ e', generate_initial_state
        (fun _ => (.error "command failed" : Except String DynVal)) failingConfig =
        .error e' ∧
      ∃ p, p ∈ failingConfig.script_vars ∧
        (fun _ => (.error "command failed" : Except String DynVal)) p.2 = .error e' :=
  generate_initial_state_fail_aborts
    (fun _ => (.error "command failed" : Except String DynVal)) failingConfig
    ⟨("x", ()), by simp [failingConfig], "command failed", rfl⟩

/-- Claim C6: in `read_from_file`, the inbuilt script variables are merged by
extending the user-parsed mapping with the inbuilt set afterwards, so every
inbuilt variable name is bound in the resulting `script_vars` mapping, and on
a name collision the inbuilt definition replaces the user's (lookup returns
the inbuilt binding). -/
theorem read_from_file_inbuilt_wins {W Wd Vd SV EW : Type} (fs : FsPath → PathKind)
    (gen_main : FsPath → Except String (Config W Wd Vd SV))
    (inbuilt : List (VarName × SV))
    (gen_window : List (String × W) → Wd → Except String EW)
    (initial_value_of : Vd → DynVal) (path : FsPath)
    (cfg : Config W Wd Vd SV) (ws : List (String × EW))
    (hfs : fs path ≠ PathKind.missing)
    (hgm : gen_main path = .ok cfg)
    (hw : collectPairs (gen_window cfg.widget_definitions) cfg.window_definitions [] = .ok ws) :
    ∃ ec, read_from_file fs gen_main inbuilt gen_window initial_value_of path = .ok ec ∧
      ec.script_vars = hmExtend cfg.script_vars inbuilt ∧
      (∀ n v, hmLookup n inbuilt.reverse = some v → hmLookup n ec.script_vars = some v) ∧
      (∀ n, (∃ v, hmLookup n inbuilt = some v) → ∃ v, hmLookup n ec.script_vars = some v) := by
  refine ⟨{ widgets := cfg.widget_definitions
            windows := ws
            initial_variables := cfg.var_definitions.map (fun p => (p.1, initial_value_of p.2))
            script_vars := hmExtend cfg.script_vars inbuilt },
    ?_, rfl, ?_, ?_⟩
  · simp [read_from_file, hfs, hgm, hw]
  · intro n v hv
    rw [hmExtend_eq, hmLookup_append, hv]
  · intro n hn
    have hmem : ∃ v, (n, v) ∈ inbuilt := (hmLookup_mem_iff n inbuilt).mp hn
    obtain ⟨v, hv⟩ := hmem
    have hrev : ∃ v', hmLookup n inbuilt.reverse = some v' :=
      (hmLookup_mem_iff n inbuilt.reverse).mpr ⟨v, List.mem_reverse.mpr hv⟩
    obtain ⟨v', hv'⟩ := hrev
    refine ⟨v', ?_⟩
    rw [hmExtend_eq, hmLookup_append, hv']

/-- A concrete parse result with user script variables `u` and `x`. -/
def userParsed : Config Unit Unit Unit Nat :=
  { widget_definitions := []
    window_definitions := []
    var_definitions := []
    script_vars := [("u", 1), ("x", 2)] }

/-- A concrete inbuilt script-variable set with `x` (colliding) and `i`. -/
def inbuiltVars : List (VarName × Nat) := [("x", 10), ("i", 11)]

theorem read_from_file_inbuilt_wins_witness :
    ∃ ec, read_from_file (fun _ => PathKind.dir) (fun _ => .ok userParsed) inbuiltVars
        (fun _ _ => (.ok () : Except String Unit)) (fun _ => dvA) "cfg/eww.yuck" = .ok ec ∧
      ec.script_vars = hmExtend userParsed.script_vars inbuiltVars ∧
      (∀ n v, hmLookup n inbuiltVars.reverse = some v → hmLookup n ec.script_vars = some v) ∧
      (∀ n, (∃ v, hmLookup n inbuiltVars = some v) → ∃ v, hmLookup n ec.script_vars = some v) :=
  read_from_file_inbuilt_wins (fun _ => PathKind.dir) (fun _ => .ok userParsed) inbuiltVars
    (fun _ _ => (.ok () : Except String Unit)) (fun _ => dvA) "cfg/eww.yuck"
    userParsed [] (by decide) rfl rfl

/-- The fixed message of the existing-regular-file branch of
`EwwPaths::from_config_dir`. -/
def fileInsteadOfDirMsg : String :=
  "Please provide the path to the config directory, not a file within it"

/-- Counterexample to claim C5 as stated: resolving against a path that is an
existing regular file fails, but the error message is a fixed sentence that
does not include the path. -/
theorem from_config_dir_file_msg_lacks_path :
    from_config_dir (fun _ => PathKind.file) "/home/user/eww" = .error fileInsteadOfDirMsg ∧
      mentions "/home/user/eww" fileInsteadOfDirMsg = false :=
  ⟨rfl, rfl⟩

/-- Claim C5 (amended): resolving against a root path that does not exist
fails with a configuration-not-found error naming the path (both
`EwwPaths::from_config_dir` and `EwwConfig::read_from_file` include the path
in their messages), while resolving against an existing regular file where a
directory was required fails in `from_config_dir` with the fixed
configuration-not-found message `fileInsteadOfDirMsg`, which asks for the
directory and does not include the path. -/
theorem config_not_found_errors {W Wd Vd SV EW : Type} (fs : FsPath → PathKind) (p : FsPath)
    (gen_main : FsPath → Except String (Config W Wd Vd SV))
    (inbuilt : List (VarName × SV))
    (gen_window : List (String × W) → Wd → Except String EW)
    (initial_value_of : Vd → DynVal) :
    (fs p = PathKind.missing →
      from_config_dir fs p = .error ("Configuration directory " ++ p ++ " does not exist") ∧
      mentions p ("Configuration directory " ++ p ++ " does not exist") = true ∧
      read_from_file fs gen_main inbuilt gen_window initial_value_of p =
        .error ("The configuration file `" ++ p ++ "` does not exist") ∧
      mentions p ("The configuration file `" ++ p ++ "` does not exist") = true) ∧
    (fs p = PathKind.file → from_config_dir fs p = .error fileInsteadOfDirMsg) := by
  constructor
  · intro h
    have hnotfile : fs p ≠ PathKind.file := by
      rw [h]
      decide
    refine ⟨?_, ?_, ?_, ?_⟩
    · simp [from_config_dir, hnotfile, h]
    · have := mentions_around p "Configuration directory " " does not exist"
      simpa using this
    · simp [read_from_file, h]
    · have hm := mentions_around p "The configuration file `" "` does not exist"
      simpa using hm
  · intro h
    simp [from_config_dir, h, fileInsteadOfDirMsg]

theorem config_not_found_errors_witness :
    from_config_dir (fun _ => PathKind.missing) "cfg" =
        .error ("Configuration directory " ++ "cfg" ++ " does not exist") ∧
      mentions "cfg" ("Configuration directory " ++ "cfg" ++ " does not exist") = true ∧
      read_from_file (fun _ => PathKind.missing) (fun _ => .ok userParsed) inbuiltVars
          (fun _ _ => (.ok () : Except String Unit)) (fun _ => dvA) "cfg" =
        .error ("The configuration file `" ++ "cfg" ++ "` does not exist") ∧
      mentions "cfg" ("The configuration file `" ++ "cfg" ++ "` does not exist") = true :=
  (config_not_found_errors (fun _ => PathKind.missing) "cfg" (fun _ => .ok userParsed)
    inbuiltVars (fun _ _ => (.ok () : Except String Unit)) (fun _ => dvA)).1 rfl

/-- `SimplExpr` from src/crates/simplexpr/src/ast.rs: in this version `Literal`
carries only a DynVal (whose own span locates it). -/
inductive SimplExpr where
  | Literal (v : DynVal)
  | JsonArray (sp : SSpan) (xs : List SimplExpr)
  | JsonObject (sp : SSpan) (xs : List (SimplExpr × SimplExpr))
  | Concat (sp : SSpan) (xs : List SimplExpr)
  | VarRef (sp : SSpan) (name : String)
  | BinOpApp (sp : SSpan) (l : SimplExpr) (op : BinOp) (r : SimplExpr)
  | UnaryOpApp (sp : SSpan) (op : UnaryOp) (x : SimplExpr)
  | IfElse (sp : SSpan) (c t e : SimplExpr)
  | JsonAccess (sp : SSpan) (v i : SimplExpr)
  | FunctionCall (sp : SSpan) (name : String) (args : List SimplExpr)

/-- The strum serializations of `BinOp` (`+  -  *  /  %  ==  !=  &&  ||  >  <
?:  =~`), used by its Display impl. -/
def binOpStr : BinOp → String
  | .Plus => "+"
  | .Minus => "-"
  | .Times => "*"
  | .Div => "/"
  | .Mod => "%"
  | .Equals => "=="
  | .NotEquals => "!="
  | .And => "&&"
  | .Or => "||"
  | .GT => ">"
  | .LT => "<"
  | .Elvis => "?:"
  | .RegexMatch => "=~"

/-- The strum serialization of `UnaryOp`. -/
def unaryOpStr : UnaryOp → String
  | .Not => "!"

mutual
/-- `impl Display for SimplExpr` from src/crates/simplexpr/src/ast.rs.
`DynVal`'s own Display (dynval.rs is not under src/) is modelled from the
spec as the underlying string of the string-backed scalar. Literal braces are
written with hex escapes (`\x7b` is `{`, `\x7d` is `}`). -/
def SimplExpr.display : SimplExpr → String
  | .Literal x => "\"" ++ x.str ++ "\""
  | .Concat _ elems => "\"" ++ displayConcatElems elems ++ "\""
  | .VarRef _ x => x
  | .BinOpApp _ l op r =>
      "(" ++ l.display ++ " " ++ binOpStr op ++ " " ++ r.display ++ ")"
  | .UnaryOpApp _ op x => unaryOpStr op ++ x.display
  | .IfElse _ a b c =>
      "(" ++ a.display ++ " ? " ++ b.display ++ " : " ++ c.display ++ ")"
  | .JsonAccess _ v i => v.display ++ "[" ++ i.display ++ "]"
  | .FunctionCall _ name args => name ++ "(" ++ displayJoinComma args ++ ")"
  | .JsonArray _ values => "[" ++ displayJoinComma values ++ "]"
  | .JsonObject _ entries => "\x7b" ++ displayJoinPairs entries ++ "\x7d"

/-- `elems.iter().map(...).join("")` of the Concat arm: literal fragments are
inlined, nested expressions are wrapped in dollar-brace delimiters. -/
def displayConcatElems : List SimplExpr → String
  | [] => ""
  | .Literal lit :: rest => lit.str ++ displayConcatElems rest
  | other :: rest => "$\x7b" ++ other.display ++ "\x7d" ++ displayConcatElems rest

/-- `.join(", ")` over rendered expressions. -/
def displayJoinComma : List SimplExpr → String
  | [] => ""
  | [x] => x.display
  | x :: y :: rest => x.display ++ ", " ++ displayJoinComma (y :: rest)

/-- `.join(", ")` over rendered `key: value` entries. -/
def displayJoinPairs : List (SimplExpr × SimplExpr) → String
  | [] => ""
  | [(k, v)] => k.display ++ ": " ++ v.display
  | (k, v) :: p :: rest =>
      k.display ++ ": " ++ v.display ++ ", " ++ displayJoinPairs (p :: rest)
end

mutual
/-- Replace every span in a SimplExpr by the dummy span: the spec-side notion
of the "structural" content of a tree, since re-parsing rendered text cannot
reproduce the original source locations (and DynVal equality in the dynval
dependency is string-based). -/
def stripSpans : SimplExpr → SimplExpr
  | .Literal x => .Literal ⟨x.str, SSpan.dummy⟩
  | .JsonArray _ vs => .JsonArray SSpan.dummy (stripSpansList vs)
  | .JsonObject _ es => .JsonObject SSpan.dummy (stripSpansPairs es)
  | .Concat _ xs => .Concat SSpan.dummy (stripSpansList xs)
  | .VarRef _ x => .VarRef SSpan.dummy x
  | .BinOpApp _ l op r => .BinOpApp SSpan.dummy (stripSpans l) op (stripSpans r)
  | .UnaryOpApp _ op x => .UnaryOpApp SSpan.dummy op (stripSpans x)
  | .IfElse _ a b c => .IfElse SSpan.dummy (stripSpans a) (stripSpans b) (stripSpans c)
  | .JsonAccess _ v i => .JsonAccess SSpan.dummy (stripSpans v) (stripSpans i)
  | .FunctionCall _ n args => .FunctionCall SSpan.dummy n (stripSpansList args)

/-- `stripSpans` over a list of subtrees. -/
def stripSpansList : List SimplExpr → List SimplExpr
  | [] => []
  | x :: rest => stripSpans x :: stripSpansList rest

/-- `stripSpans` over a list of entry pairs. -/
def stripSpansPairs : List (SimplExpr × SimplExpr) → List (SimplExpr × SimplExpr)
  | [] => []
  | (k, v) :: rest => (stripSpans k, stripSpans v) :: stripSpansPairs rest
end

/-- The fragment of the round-trip claim: literals, variable references, and
binary-operator applications (closed under operands). -/
def rtFragment : SimplExpr → Bool
  | .Literal _ => true
  | .VarRef _ _ => true
  | .BinOpApp _ l _ r => rtFragment l && rtFragment r
  | _ => false

/-- A variable reference whose name is the three characters quote-x-quote. -/
def rtCexVar : SimplExpr := .VarRef SSpan.dummy "\"x\""

/-- The literal with value x. -/
def rtCexLit : SimplExpr := .Literal ⟨"x", SSpan.dummy⟩

/-- Counterexample to claim C8 as stated: the fragment trees `rtCexVar` and
`rtCexLit` are structurally distinct yet render to the same text, so no
expression parser whatsoever can map each rendering back to a tree
structurally equal to its original — the round-trip property fails for every
possible parser at one of these two inputs. -/
theorem display_roundtrip_impossible :
    SimplExpr.display rtCexVar = SimplExpr.display rtCexLit ∧
      stripSpans rtCexVar ≠ stripSpans rtCexLit ∧
      rtFragment rtCexVar = true ∧ rtFragment rtCexLit = true ∧
      ¬ ∃ parse : String → Option SimplExpr,
          ∀ e, rtFragment e = true →
            ∃ r, parse (SimplExpr.display e) = some r ∧ stripSpans r = stripSpans e := by
  refine ⟨rfl, fun h => SimplExpr.noConfusion h, rfl, rfl, ?_⟩
  rintro ⟨parse, hp⟩
  obtain ⟨r1, hr1, hs1⟩ := hp rtCexVar rfl
  obtain ⟨r2, hr2, hs2⟩ := hp rtCexLit rfl
  have hdisp : SimplExpr.display rtCexVar = SimplExpr.display rtCexLit := rfl
  rw [hdisp, hr2] at hr1
  cases hr1
  rw [hs1] at hs2
  exact SimplExpr.noConfusion hs2

/-- Identifier characters for variable names in the modelled expression
grammar: alphanumeric, underscore, or dash. -/
def identChar (c : Char) : Bool := c.isAlphanum || c = '_' || c = '-'

/-- The inverse of `binOpStr`, recognizing an operator token. -/
def binOpOfString : String → Option BinOp
  | "+" => some .Plus
  | "-" => some .Minus
  | "*" => some .Times
  | "/" => some .Div
  | "%" => some .Mod
  | "==" => some .Equals
  | "!=" => some .NotEquals
  | "&&" => some .And
  | "||" => some .Or
  | ">" => some .GT
  | "<" => some .LT
  | "?:" => some .Elvis
  | "=~" => some .RegexMatch
  | _ => none

/-- Modelled from the spec: the expression parser (external to the core, not
under src/; spec sections 2 and 8 require only that the rendered textual form
of literals, variable references and binary-operator applications be
re-parseable). Recursive descent over the rendered grammar fragment: a quoted
literal, a parenthesized `left op right` application, or an identifier
variable reference; `fuel` bounds the recursion depth. Reconstructed spans are
the dummy span, since positions in the rendered text are unrelated to the
original source. -/
def parseExprF : Nat → List Char → Option (SimplExpr × List Char)
  | 0, _ => none
  | _ + 1, [] => none
  | fuel + 1, c :: cs =>
      if c = '"' then
        match cs.dropWhile (fun ch => ch ≠ '"') with
        | '"' :: rest =>
            some (.Literal ⟨String.mk (cs.takeWhile (fun ch => ch ≠ '"')), SSpan.dummy⟩, rest)
        | _ => none
      else if c = '(' then
        match parseExprF fuel cs with
        | none => none
        | some (l, r1) =>
            match r1 with
            | ' ' :: r2 =>
                match binOpOfString (String.mk (r2.takeWhile (fun ch => ch ≠ ' '))) with
                | none => none
                | some op =>
                    match r2.dropWhile (fun ch => ch ≠ ' ') with
                    | ' ' :: r4 =>
                        match parseExprF fuel r4 with
                        | none => none
                        | some (r, r5) =>
                            match r5 with
                            | ')' :: r6 => some (.BinOpApp SSpan.dummy l op r, r6)
                            | _ => none
                    | _ => none
            | _ => none
      else if identChar c then
        some (.VarRef SSpan.dummy (String.mk (c :: cs.takeWhile identChar)),
          cs.dropWhile identChar)
      else none

/-- Modelled from the spec: the whole-string entry point of the expression
parser — the input must be consumed entirely. -/
def parseSimplExpr (s : String) : Option SimplExpr :=
  match parseExprF (s.length + 1) s.toList with
  | some (e, []) => some e
  | _ => none

/-- Well-formedness of a fragment tree for the amended round-trip claim:
literal values contain no quote character, variable names are nonempty and
consist of identifier characters, and binary applications are built from
well-formed operands. -/
def wfRt : SimplExpr → Bool
  | .Literal d => d.str.toList.all (fun c => c ≠ '"')
  | .VarRef _ n => !n.toList.isEmpty && n.toList.all identChar
  | .BinOpApp _ l _ r => wfRt l && wfRt r
  | _ => false

/-- Nesting depth of binary applications, bounding the parser fuel. -/
def rtDepth : SimplExpr → Nat
  | .BinOpApp _ l _ r => max (rtDepth l) (rtDepth r) + 1
  | _ => 1

/-- What may legally follow a rendered tree so that the parser stops exactly
at its end: after a variable reference the next character must not be an
identifier character; quoted literals and parenthesized applications are
self-delimiting. -/
def stopsOk : SimplExpr → List Char → Prop
  | .VarRef _ _, c :: _ => identChar c = false
  | _, _ => True

theorem takeWhile_append_stop {α : Type} (p : α → Bool) :
    ∀ (l1 : List α) (c : α) (t : List α), l1.all p = true → p c = false →
      ((l1 ++ c :: t).takeWhile p = l1 ∧ (l1 ++ c :: t).dropWhile p = c :: t) := by
  intro l1
  induction l1 with
  | nil =>
      intro c t _ hc
      simp [List.takeWhile, List.dropWhile, hc]
  | cons h rest ih =>
      intro c t hall hc
      simp only [List.all_cons, Bool.and_eq_true] at hall
      have := ih c t hall.2 hc
      simp [List.takeWhile, List.dropWhile, hall.1, this.1, this.2]

theorem takeWhile_all {α : Type} (p : α → Bool) :
    ∀ l : List α, l.all p = true → (l.takeWhile p = l ∧ l.dropWhile p = []) := by
  intro l
  induction l with
  | nil => intro _; simp
  | cons h rest ih =>
      intro hall
      simp only [List.all_cons, Bool.and_eq_true] at hall
      have := ih hall.2
      simp [List.takeWhile, List.dropWhile, hall.1, this.1, this.2]

theorem string_mk_toList (s : String) : String.mk s.toList = s :=
  rfl

theorem binOpOfString_binOpStr (op : BinOp) : binOpOfString (binOpStr op) = some op := by
  cases op <;> rfl

theorem binOpStr_no_space (op : BinOp) :
    (binOpStr op).toList.all (fun ch => ch ≠ ' ') = true := by
  cases op <;> decide

theorem stopsOk_cons (e : SimplExpr) (c : Char) (t : List Char)
    (h : identChar c = false) : stopsOk e (c :: t) := by
  cases e <;> trivial

theorem stopsOk_nil (e : SimplExpr) : stopsOk e [] := by
  cases e <;> trivial

theorem parseExprF_display :
    ∀ (fuel : Nat) (e : SimplExpr), wfRt e = true → rtDepth e < fuel →
      ∀ rest : List Char, stopsOk e rest →
        parseExprF fuel ((SimplExpr.display e).toList ++ rest) = some (stripSpans e, rest) := by
  intro fuel
  induction fuel with
  | zero =>
      intro e _ hd rest _
      exact absurd hd (Nat.not_lt_zero _)
  | succ f ih =>
      intro e hw hd rest hs
      cases e with
      | Literal d =>
          have hwl : d.str.toList.all (fun c => c ≠ '"') = true := hw
          have hshape : (SimplExpr.display (.Literal d)).toList ++ rest =
              '"' :: (d.str.toList ++ '"' :: rest) := by
            simp [SimplExpr.display, string_data_append]
          rw [hshape]
          obtain ⟨ht, hdp⟩ :=
            takeWhile_append_stop (fun ch => ch ≠ '"') d.str.toList '"' rest hwl (by decide)
          simp only [parseExprF, if_pos rfl, hdp, ht, string_mk_toList]
          rfl
      | VarRef sp n =>
          have hne : n.toList.isEmpty = false := by
            have := hw
            simp only [wfRt, Bool.and_eq_true, Bool.not_eq_true'] at this
            exact this.1
          have hall : n.toList.all identChar = true := by
            have := hw
            simp only [wfRt, Bool.and_eq_true, Bool.not_eq_true'] at this
            exact this.2
          match hn : n.toList with
          | [] => rw [hn] at hne; cases hne
          | c :: cs =>
              rw [hn] at hall
              simp only [List.all_cons, Bool.and_eq_true] at hall
              have hcq : (c = '"') = False := by
                simp only [eq_iff_iff, iff_false]
                intro h
                rw [h] at hall
                cases hall.1
              have hcp : (c = '(') = False := by
                simp only [eq_iff_iff, iff_false]
                intro h
                rw [h] at hall
                cases hall.1
              simp only [parseExprF, hcq, if_false, hcp, hall.1, if_true]
              match rest, hs with
              | [], _ =>
                  obtain ⟨ht, hdp⟩ := takeWhile_all identChar cs hall.2
                  simp only [List.append_eq, List.append_nil, ht, hdp]
                  have : String.mk (c :: cs) = n := by rw [← hn]; rfl
                  rw [this]
                  rfl
              | c' :: t, hs =>
                  have hstop : identChar c' = false := hs
                  obtain ⟨ht, hdp⟩ :=
                    takeWhile_append_stop identChar cs c' t hall.2 hstop
                  simp only [List.append_eq, ht, hdp]
                  have : String.mk (c :: cs) = n := by rw [← hn]; rfl
                  rw [this]
                  rfl
      | BinOpApp sp l op r =>
          have hwl : wfRt l = true := by
            simp only [wfRt, Bool.and_eq_true] at hw
            exact hw.1
          have hwr : wfRt r = true := by
            simp only [wfRt, Bool.and_eq_true] at hw
            exact hw.2
          have hdl : rtDepth l < f := by
            simp only [rtDepth] at hd
            have h1 := Nat.le_max_left (rtDepth l) (rtDepth r)
            omega
          have hdr : rtDepth r < f := by
            simp only [rtDepth] at hd
            have h2 := Nat.le_max_right (rtDepth l) (rtDepth r)
            omega
          have hshape : (SimplExpr.display (.BinOpApp sp l op r)).toList ++ rest =
              '(' :: ((SimplExpr.display l).toList ++ ' ' ::
                ((binOpStr op).toList ++ ' ' ::
                  ((SimplExpr.display r).toList ++ ')' :: rest))) := by
            simp [SimplExpr.display, string_data_append]
          rw [hshape]
          have hl := ih l hwl hdl
            (' ' :: ((binOpStr op).toList ++ ' ' ::
              ((SimplExpr.display r).toList ++ ')' :: rest)))
            (stopsOk_cons l ' ' _ (by decide))
          have hr := ih r hwr hdr (')' :: rest) (stopsOk_cons r ')' rest (by decide))
          obtain ⟨hto, hdo⟩ :=
            takeWhile_append_stop (fun ch => ch ≠ ' ') (binOpStr op).toList ' '
              ((SimplExpr.display r).toList ++ ')' :: rest)
              (binOpStr_no_space op) (by decide)
          simp only [parseExprF, if_neg (by decide : ¬('(' = '"')), if_pos rfl, hl,
            hto, string_mk_toList, binOpOfString_binOpStr, hdo, hr]
          rfl
      | JsonArray sp xs => exact Bool.noConfusion hw
      | JsonObject sp xs => exact Bool.noConfusion hw
      | Concat sp xs => exact Bool.noConfusion hw
      | UnaryOpApp sp op x => exact Bool.noConfusion hw
      | IfElse sp a b c => exact Bool.noConfusion hw
      | JsonAccess sp v i => exact Bool.noConfusion hw
      | FunctionCall sp n args => exact Bool.noConfusion hw

theorem rtDepth_le_len :
    ∀ e : SimplExpr, wfRt e = true → rtDepth e ≤ (SimplExpr.display e).toList.length
  | .Literal d, _ => by
      simp [SimplExpr.display, rtDepth, string_data_append]
  | .VarRef sp n, h => by
      have hne : n.toList.isEmpty = false := by
        simp only [wfRt, Bool.and_eq_true, Bool.not_eq_true'] at h
        exact h.1
      simp only [SimplExpr.display, rtDepth]
      match hn : n.toList with
      | [] => rw [hn] at hne; cases hne
      | c :: cs => simp
  | .BinOpApp sp l op r, h => by
      have hw : wfRt l = true ∧ wfRt r = true := by
        simpa [wfRt, Bool.and_eq_true] using h
      have hl := rtDepth_le_len l hw.1
      have hr := rtDepth_le_len r hw.2
      simp only [SimplExpr.display, rtDepth, string_data_append, List.length_append]
      have e1 : ("(".toList).length = 1 := rfl
      have e2 : (" ".toList).length = 1 := rfl
      have e3 : (")".toList).length = 1 := rfl
      omega
  | .JsonArray sp xs, h => Bool.noConfusion h
  | .JsonObject sp xs, h => Bool.noConfusion h
  | .Concat sp xs, h => Bool.noConfusion h
  | .UnaryOpApp sp op x, h => Bool.noConfusion h
  | .IfElse sp a b c, h => Bool.noConfusion h
  | .JsonAccess sp v i, h => Bool.noConfusion h
  | .FunctionCall sp n args, h => Bool.noConfusion h

/-- Claim C8 (amended): for every Expression-AST tree in the
literal/variable-reference/binary-operator fragment that is well formed —
literal values contain no quote character and variable names are nonempty
identifier strings — rendering the tree to text via Display and re-parsing
that text with the (spec-modelled) expression parser yields exactly the
original tree up to source locations (`stripSpans`). The restriction and the
span erasure are forced: `display_roundtrip_impossible` exhibits two
structurally distinct fragment trees with identical renderings. -/
theorem display_parse_roundtrip (e : SimplExpr) (h : wfRt e = true) :
    parseSimplExpr (SimplExpr.display e) = some (stripSpans e) := by
  have hlen : rtDepth e < (SimplExpr.display e).length + 1 := by
    have := rtDepth_le_len e h
    have heq : (SimplExpr.display e).toList.length = (SimplExpr.display e).length := rfl
    omega
  have hp := parseExprF_display ((SimplExpr.display e).length + 1) e h hlen []
    (stopsOk_nil e)
  rw [List.append_nil] at hp
  unfold parseSimplExpr
  rw [hp]

/-- The fragment tree `foo + "1"` with arbitrary source spans. -/
def rtWitnessTree : SimplExpr :=
  .BinOpApp ⟨1, 9, 0⟩ (.VarRef ⟨2, 5, 0⟩ "foo") .Plus (.Literal ⟨"1", ⟨8, 9, 0⟩⟩)

theorem display_parse_roundtrip_witness :
    SimplExpr.display rtWitnessTree = "(foo + \"1\")" ∧
      parseSimplExpr "(foo + \"1\")" = some (stripSpans rtWitnessTree) :=
  ⟨rfl, display_parse_roundtrip rtWitnessTree rfl⟩
